import Mathlib

/-!
Verification of the markdown ⇄ Plate-JSON converter.

This file gives a shallow embedding of the two core subsystems of the
repository — the tree-to-markdown serializer (`custom-serializer.ts`,
first variant: the one with escaping, caption alt text and align-aware
tables) and the tree/AST aligner-enricher (`converter.ts`:
`enrichPlateJSON`, `checkMatch`, `restoreLinkReference`) — and proves
the frozen claims about them.

Modelling conventions:
* a Slate `Descendant` is `Node`: either a `TextLeaf` (marks are `Bool`
  flags, a missing flag is `false`, matching JS truthiness of missing
  properties) or an element with its optional fields (`Option` models a
  possibly-missing JS property; JS `x || ""` becomes `Option.getD ""`);
* an mdast node is `MNode`; its `children` is `Option (List MNode)`
  because JS distinguishes a missing `children` (falsy) from a present
  array (truthy, even when empty);
* the definitions map is a function `String → Option String`
  (`Map.get` returns `undefined` for a missing key);
* the in-place mutation of `enrichPlateJSON` is modelled functionally:
  the function returns the enriched sibling list.
-/

/-- Leaf text node of the editor tree (`Text` in the source): the text
plus the five independent mark flags. -/
structure TextLeaf where
  text : String
  bold : Bool := false
  italic : Bool := false
  code : Bool := false
  strikethrough : Bool := false
  underline : Bool := false
deriving Repr, DecidableEq

/-- Editor document tree node (`Descendant` in the source): a text leaf
or an element carrying a `type` string, the optional fields the
serializer and enricher read (`url`, `lang`, `checked`, `align`,
`caption`), and its children. -/
inductive Node where
  | text (leaf : TextLeaf)
  | elem (ty : String) (url lang : Option String) (checked : Option Bool)
      (align : Option (List (Option String))) (caption : Option (List String))
      (children : List Node)
deriving Repr

/-- Escape of `*`, `_`, `[`, `]` by a preceding backslash, the
`text.replace(/([*_[\]])/g, "\\$1")` step of `serializeText`. -/
def escapeChars : List Char → List Char
  | [] => []
  | c :: cs =>
      if c = '*' ∨ c = '_' ∨ c = '[' ∨ c = ']' then '\\' :: c :: escapeChars cs
      else c :: escapeChars cs

/-- String form of `escapeChars`. -/
def escapeMd (s : String) : String :=
  ⟨escapeChars s.data⟩

/-- The `serializeText` function of `custom-serializer.ts`: escape the
text when no `bold`/`italic`/`code` mark is set, then apply the mark
wrappers in the source's order: bold, italic, code, strikethrough,
underline. -/
def serializeText (node : TextLeaf) : String :=
  let t0 := if !node.bold && !node.italic && !node.code then escapeMd node.text else node.text
  let t1 := if node.bold then "**" ++ t0 ++ "**" else t0
  let t2 := if node.italic then "*" ++ t1 ++ "*" else t1
  let t3 := if node.code then "`" ++ t2 ++ "`" else t2
  let t4 := if node.strikethrough then "~~" ++ t3 ++ "~~" else t3
  if node.underline then "_" ++ t4 ++ "_" else t4

example : serializeText ⟨"x", true, false, true, false, false⟩ = "`**x**`" := by decide

example : serializeText ⟨"a*b_c[d]e", false, false, false, false, false⟩
    = "a\\*b\\_c\\[d\\]e" := by decide


/-- JS `Array.prototype.join(sep)`: the elements interleaved with the
separator. -/
def joinSep (sep : String) : List String → String
  | [] => ""
  | [x] => x
  | x :: y :: xs => x ++ sep ++ joinSep sep (y :: xs)

/-- Character-level worker for `splitNl`, accumulating the current line
in reverse. -/
def splitNlAux : List Char → List Char → List String
  | [], acc => [⟨acc.reverse⟩]
  | c :: cs, acc =>
      if c = '\n' then (⟨acc.reverse⟩ : String) :: splitNlAux cs []
      else splitNlAux cs (c :: acc)

/-- JS `String.prototype.split("\n")`: the list of lines (a string with
no newline yields a one-element list). -/
def splitNl (s : String) : List String :=
  splitNlAux s.data []

/-- Two-space indentation, `"  ".repeat(depth)` in the source. -/
def indentStr : Nat → String
  | 0 => ""
  | n + 1 => indentStr n ++ "  "

/-- A run of `n` spaces, `" ".repeat(n)` in the source. -/
def spaces (n : Nat) : String :=
  ⟨List.replicate n ' '⟩

/-- Alignment lookup `alignments[index]` of `serializeTable`: out of
range and a `null` entry both behave as "no alignment". -/
def alignAt (alignments : List (Option String)) (i : Nat) : Option String :=
  (alignments.get? i).join

/-- One separator-row marker of `serializeTable`: `":---:"` for a
`"center"` alignment, `"---:"` for `"right"`, `"---"` otherwise
(including `"left"`, `null` and a missing entry). -/
def alignMarker (a : Option String) : String :=
  if a = some "center" then ":---:"
  else if a = some "right" then "---:"
  else "---"

/-- Separator markers of `serializeTable`, one per header cell,
produced by `cells.map((_, index) => ...)` over the align sequence. -/
def sepMarkers : List Node → List (Option String) → Nat → List String
  | [], _, _ => []
  | _ :: cs, alignments, i => alignMarker (alignAt alignments i) :: sepMarkers cs alignments (i + 1)

/-- The `children || []` read: elements expose their children, a text
leaf has none. -/
def Node.childrenOf : Node → List Node
  | .text _ => []
  | .elem _ _ _ _ _ _ cs => cs

/-- The `"checked" in node && typeof node.checked === "boolean"` read
of `serializeListItem`. -/
def Node.checkedOf : Node → Option Bool
  | .text _ => none
  | .elem _ _ _ ch _ _ _ => ch

/-- The `child.type === "ul" || child.type === "ol"` test of
`serializeListItem`'s child loop. -/
def Node.isNestedList : Node → Bool
  | .text _ => false
  | .elem ty _ _ _ _ _ _ => ty = "ul" ∨ ty = "ol"

/-- The `child.type === "code_block" || child.type === "blockquote"`
test of `serializeListItem`'s child loop. -/
def Node.isBlockChild : Node → Bool
  | .text _ => false
  | .elem ty _ _ _ _ _ _ => ty = "code_block" ∨ ty = "blockquote"

/-- List-item marker: `"{index}."` for ordered items, `"-"` otherwise
(an ordered call always passes an index; the `none` case mirrors JS
printing of an absent index). -/
def liMarker (ordered : Bool) (index : Option Nat) : String :=
  if ordered then
    (match index with
     | some i => toString i ++ "."
     | none => "undefined.")
  else "-"

/-- Task-list checkbox of `serializeListItem`: `"[x] "`/`"[ ] "` when
the node carries a boolean `checked`, empty otherwise. -/
def checkboxPfx : Option Bool → String
  | some b => if b then "[x] " else "[ ] "
  | none => ""

/-- Final assembly of `serializeListItem`: indent, marker, optional
checkbox, content, then the collected nested lists on new lines. -/
def liAssemble (ordered : Bool) (depth : Nat) (index : Option Nat)
    (checked : Option Bool) (parts : String × List String) : String :=
  let result := indentStr depth ++ liMarker ordered index ++ " " ++ checkboxPfx checked ++ parts.1
  if parts.2 ≠ [] then result ++ "\n" ++ joinSep "\n" parts.2
  else result

/-- Block-child re-indentation of `serializeListItem`: prefix every
line with the marker-width offset and start on a fresh line. -/
def blockIndent (ordered : Bool) (childContent : String) : String :=
  let offset := if ordered then 3 else 2
  "\n" ++ joinSep "\n" ((splitNl childContent).map (fun line => spaces offset ++ line))

mutual

/-- The `serializeNode` function of `custom-serializer.ts` (first
variant): dispatch on the element type, with the type-specific
rendering rules of the source. -/
def serializeNode : Node → Nat → String
  | .text l, _ => serializeText l
  | .elem ty url lang _ align caption children, listDepth =>
      if ty = "h1" then "# " ++ serializeChildren children
      else if ty = "h2" then "## " ++ serializeChildren children
      else if ty = "h3" then "### " ++ serializeChildren children
      else if ty = "h4" then "#### " ++ serializeChildren children
      else if ty = "h5" then "##### " ++ serializeChildren children
      else if ty = "h6" then "###### " ++ serializeChildren children
      else if ty = "p" then serializeChildren children
      else if ty = "blockquote" then
        joinSep "\n" ((splitNl (serializeChildren children)).map (fun line => "> " ++ line))
      else if ty = "ul" then
        joinSep "\n" (serializeUlItems children listDepth)
      else if ty = "ol" then
        joinSep "\n" (serializeOlItems children listDepth 1)
      else if ty = "li" ∨ ty = "lic" then serializeChildren children
      else if ty = "code_block" then
        "```" ++ lang.getD "" ++ "\n" ++ joinSep "\n" (serializeLines children) ++ "\n```"
      else if ty = "code_line" then serializeChildren children
      else if ty = "hr" then "---"
      else if ty = "a" then
        "[" ++ serializeChildren children ++ "](" ++ url.getD "" ++ ")"
      else if ty = "img" then
        let captionText := caption.bind List.head?
        let alt :=
          match captionText with
          | some t => if t = "" then serializeChildren children else t
          | none => serializeChildren children
        "![" ++ alt ++ "](" ++ url.getD "" ++ ")"
      else if ty = "table" then serializeTable align children
      else serializeChildren children

/-- The `serializeChildren` helper: children serialized at depth 0 and
concatenated with no separator. -/
def serializeChildren : List Node → String
  | [] => ""
  | c :: cs => serializeNode c 0 ++ serializeChildren cs

/-- The `ul` branch of `serializeNode`: each child through
`serializeListItem(child, false, listDepth)`. -/
def serializeUlItems : List Node → Nat → List String
  | [], _ => []
  | c :: cs, d => serializeListItem c false d none :: serializeUlItems cs d

/-- The `ol` branch of `serializeNode`: each child through
`serializeListItem(child, true, listDepth, index + 1)`. -/
def serializeOlItems : List Node → Nat → Nat → List String
  | [], _, _ => []
  | c :: cs, d, i => serializeListItem c true d (some i) :: serializeOlItems cs d (i + 1)

/-- The `code_block` branch of `serializeNode`:
`children.map((child) => serializeNode(child))`. -/
def serializeLines : List Node → List String
  | [] => []
  | c :: cs => serializeNode c 0 :: serializeLines cs

/-- The child loop of `serializeListItem`: nested `ul`/`ol` children go
into the `nestedLists` accumulator (serialized at `depth + 1`), all
other children are serialized and concatenated into `content`, block
children (`code_block`, `blockquote`) re-indented onto their own
lines. -/
def liLoop : List Node → Bool → Nat → String × List String
  | [], _, _ => ("", [])
  | c :: cs, ordered, depth =>
      let rest := liLoop cs ordered depth
      if c.isNestedList then
        (rest.1, serializeNode c (depth + 1) :: rest.2)
      else
        let childContent := serializeNode c depth
        let childContent :=
          if c.isBlockChild then blockIndent ordered childContent
          else childContent
        (childContent ++ rest.1, rest.2)

/-- The `serializeListItem` function of `custom-serializer.ts` (first
variant): a text node behaves as an element with no children and no
`checked` field, per the `node.children || []` and `"checked" in node`
reads. -/
def serializeListItem : Node → Bool → Nat → Option Nat → String
  | .text _, ordered, depth, index =>
      liAssemble ordered depth index none ("", [])
  | .elem _ _ _ ch _ _ children, ordered, depth, index =>
      liAssemble ordered depth index ch (liLoop children ordered depth)

/-- One data row of `serializeTable`:
`"| " + cells.map(serializeChildren).join(" | ") + " |"`. -/
def rowLine : Node → String
  | .text _ => "| " ++ joinSep " | " [] ++ " |"
  | .elem _ _ _ _ _ _ cells => "| " ++ joinSep " | " (rowCells cells) ++ " |"

/-- Cell contents of one table row:
`cells.map((cell) => serializeChildren(cell.children || []))`. -/
def rowCells : List Node → List String
  | [] => []
  | .elem _ _ _ _ _ _ ccs :: cs => serializeChildren ccs :: rowCells cs
  | .text _ :: cs => "" :: rowCells cs

/-- Lines of the non-header rows of `serializeTable`. -/
def bodyLines : List Node → List String
  | [] => []
  | r :: rs => rowLine r :: bodyLines rs

/-- The `serializeTable` function of `custom-serializer.ts` (first
variant): empty for a row-less table; otherwise the header-row line,
then the alignment separator line built from the header row's cells,
then one line per remaining row, joined with newlines. Alignments
default to `[]` when the element has no `align`. -/
def serializeTable : Option (List (Option String)) → List Node → String
  | _, [] => ""
  | align, r :: rs =>
      joinSep "\n" (rowLine r :: sepLineOf r (align.getD []) :: bodyLines rs)

/-- The separator line of `serializeTable`, built from the header row's
cells and the align sequence. -/
def sepLineOf : Node → List (Option String) → String
  | .text _, alignments => "| " ++ joinSep " | " (sepMarkers [] alignments 0) ++ " |"
  | .elem _ _ _ _ _ _ cells, alignments =>
      "| " ++ joinSep " | " (sepMarkers cells alignments 0) ++ " |"

end

/-- The `serializeToMarkdown` entry point: top-level blocks joined with
a blank line. -/
def serializeToMarkdown (nodes : List Node) : String :=
  joinSep "\n\n" (nodes.map (fun n => serializeNode n 0))

example :
    serializeNode (.elem "h2" none none none none none [.text ⟨"Hi", false, false, false, false, false⟩]) 0
      = "## Hi" := by decide

/-- Mdast node (`converter.ts` reads these fields): `type`, `depth`
(headings), `ordered`/`checked` (lists), `align` (tables, entries may
be `null`), `url`/`identifier` (links, definitions), `value` (text),
and an optional `children` array. -/
inductive MNode where
  | mk (ty : String) (depth : Option Nat) (ordered checked : Option Bool)
      (align : Option (List (Option String))) (url identifier value : Option String)
      (children : Option (List MNode))
deriving Repr

/-- Projection: mdast `type`. -/
def MNode.ty : MNode → String
  | .mk t _ _ _ _ _ _ _ _ => t

/-- Projection: mdast `depth`. -/
def MNode.depth : MNode → Option Nat
  | .mk _ d _ _ _ _ _ _ _ => d

/-- Projection: mdast `ordered`. -/
def MNode.ordered : MNode → Option Bool
  | .mk _ _ o _ _ _ _ _ _ => o

/-- Projection: mdast `checked`. -/
def MNode.checked : MNode → Option Bool
  | .mk _ _ _ c _ _ _ _ _ => c

/-- Projection: mdast `align`. -/
def MNode.align : MNode → Option (List (Option String))
  | .mk _ _ _ _ a _ _ _ _ => a

/-- Projection: mdast `url`. -/
def MNode.url : MNode → Option String
  | .mk _ _ _ _ _ u _ _ _ => u

/-- Projection: mdast `identifier`. -/
def MNode.identifier : MNode → Option String
  | .mk _ _ _ _ _ _ i _ _ => i

/-- Projection: mdast `value`. -/
def MNode.value : MNode → Option String
  | .mk _ _ _ _ _ _ _ v _ => v

/-- Projection: mdast `children`. -/
def MNode.children : MNode → Option (List MNode)
  | .mk _ _ _ _ _ _ _ _ c => c

/-- The definitions map `identifier → url`; `Map.get` on a missing key
returns `undefined`, hence `Option`. -/
abbrev Defs := String → Option String

mutual

/-- Total number of mdast nodes in a subtree (each node counts one). -/
def msize : MNode → Nat
  | .mk _ _ _ _ _ _ _ _ none => 1
  | .mk _ _ _ _ _ _ _ _ (some cs) => 1 + msizeL cs

/-- Total number of mdast nodes in a sibling list, subtrees included. -/
def msizeL : List MNode → Nat
  | [] => 0
  | m :: ms => msize m + msizeL ms

end

theorem msizeL_append (l1 l2 : List MNode) :
    msizeL (l1 ++ l2) = msizeL l1 + msizeL l2 := by
  induction l1 with
  | nil => simp [msizeL]
  | cons m ms ih => simp [msizeL, ih]; omega

theorem msize_pos (m : MNode) : 0 < msize m := by
  cases m with
  | mk t d o c a u i v ch => cases ch <;> simp [msize]

theorem msize_of_children {m : MNode} {cs : List MNode}
    (h : m.children = some cs) : msize m = 1 + msizeL cs := by
  cases m with
  | mk t d o c a u i v ch =>
      cases ch with
      | none => simp [MNode.children] at h
      | some cs' => simp [MNode.children] at h; subst h; simp [msize]

/-- The `checkMatch` function of `converter.ts`: the fixed
type-correspondence table, with the `a`↔(`link`|`linkReference`) case
further conditioned on URL equality (for a `linkReference` the AST URL
is `definitions.get(identifier)`), and the trailing text-leaf ↔ `text`
case. -/
def checkMatch (p : Node) (m : MNode) (defs : Defs) : Bool :=
  match p with
  | .elem ty url _ _ _ _ _ =>
      if ty = "li" ∧ m.ty = "listItem" then true
      else if ty = "ul" ∧ m.ty = "list" ∧ m.ordered ≠ some true then true
      else if ty = "ol" ∧ m.ty = "list" ∧ m.ordered = some true then true
      else if ty = "table" ∧ m.ty = "table" then true
      else if ty = "lic" ∧ m.ty = "paragraph" then true
      else if ty = "p" ∧ m.ty = "paragraph" then true
      else if ty = "h1" ∧ m.ty = "heading" ∧ m.depth = some 1 then true
      else if ty = "h2" ∧ m.ty = "heading" ∧ m.depth = some 2 then true
      else if ty = "h3" ∧ m.ty = "heading" ∧ m.depth = some 3 then true
      else if ty = "h4" ∧ m.ty = "heading" ∧ m.depth = some 4 then true
      else if ty = "h5" ∧ m.ty = "heading" ∧ m.depth = some 5 then true
      else if ty = "h6" ∧ m.ty = "heading" ∧ m.depth = some 6 then true
      else if ty = "blockquote" ∧ m.ty = "blockquote" then true
      else if ty = "code_block" ∧ m.ty = "code" then true
      else if ty = "hr" ∧ m.ty = "thematicBreak" then true
      else if ty = "img" ∧ (m.ty = "image" ∨ m.ty = "imageReference") then true
      else if ty = "a" ∧ (m.ty = "link" ∨ m.ty = "linkReference") then
        decide (url = (if m.ty = "linkReference" then m.identifier.bind defs else m.url))
      else false
  | .text _ => decide (m.ty = "text")

/-- The `restoreLinkReference` function of `converter.ts`: resolve the
URL through the definitions map (empty string when unresolved), convert
the reference's text children to plain leaves (any non-text child falls
back to an empty leaf, a missing children array to one empty leaf), and
build the replacement `a` node. The JS function always returns a
non-null node. -/
def restoreLinkReference (m : MNode) (defs : Defs) : Node :=
  let url := (m.identifier.bind defs).getD ""
  let children :=
    match m.children with
    | some cs =>
        cs.map (fun c =>
          if c.ty = "text" then Node.text ⟨c.value.getD "", false, false, false, false, false⟩
          else Node.text ⟨"", false, false, false, false, false⟩)
    | none => [Node.text ⟨"", false, false, false, false, false⟩]
  Node.elem "a" (some url) none none none none children

/-- Metadata copy of the match branch of `enrichPlateJSON`: on an
`li`↔`listItem` match the AST's boolean `checked` is assigned to the
tree node. -/
def copyChecked (pty : String) (m : MNode) (checked : Option Bool) : Option Bool :=
  if pty = "li" ∧ m.ty = "listItem" then
    match m.checked with
    | some b => some b
    | none => checked
  else checked

/-- Metadata copy of the match branch of `enrichPlateJSON`: on a
`table`↔`table` match a present AST `align` is assigned to the tree
node. -/
def copyAlign (pty : String) (m : MNode)
    (align : Option (List (Option String))) : Option (List (Option String)) :=
  if pty = "table" ∧ m.ty = "table" then
    match m.align with
    | some al => some al
    | none => align
  else align

/-- Size of an optional children list. -/
def msizeO : Option (List MNode) → Nat
  | none => 0
  | some cs => msizeL cs

theorem msizeO_children_lt (m : MNode) : msizeO m.children < msize m := by
  cases m with
  | mk t d o c a u i v ch => cases ch <;> simp [MNode.children, msizeO, msize]

/-- The `mdNodes.splice(mIndex, 1, ...mNode.children)` step of
`enrichPlateJSON`: the wrapper node is replaced, at its position, by
its children (a wrapper with no children array is just dropped, the
`mIndex++` branch). -/
def spliceList : Option (List MNode) → List MNode → List MNode
  | some cs, ms => cs ++ ms
  | none, ms => ms

theorem msizeL_spliceList (m : MNode) (ms : List MNode) :
    msizeL (spliceList m.children ms) < msizeL (m :: ms) := by
  cases m with
  | mk t d o c a u i v ch =>
      cases ch with
      | none => simp [MNode.children, spliceList, msizeL, msize]
      | some cs =>
          simp [MNode.children, spliceList, msizeL, msize, msizeL_append]

mutual

/-- The `enrichPlateJSON` function of `converter.ts`, modelled
functionally: the returned list is the mutated `plateNodes` sibling
list. The two-pointer loop becomes recursion on the two lists: when the
tree side is exhausted only `linkReference` AST nodes are restored (and
appended); a `strong`/`emphasis`/`delete` AST wrapper is spliced
(replaced by its children at the same position, reprocessed at the same
tree cursor); `definition`/`yaml` AST nodes are skipped; a match copies
`checked`/`align` metadata and recurses into both children lists when
both are present (`enrichMatched`), consuming both nodes; a mismatching
`linkReference` is restored and inserted before the current tree node;
any other mismatch advances only the AST side. Termination is by the
total count `msizeL` of remaining AST nodes, which every step strictly
decreases. -/
def enrichPlateJSON : List Node → List MNode → Defs → List Node
  | ps, [], _ => ps
  | [], m :: ms, defs =>
      if m.ty = "linkReference" then restoreLinkReference m defs :: enrichPlateJSON [] ms defs
      else enrichPlateJSON [] ms defs
  | p :: ps, m :: ms, defs =>
      if m.ty = "strong" ∨ m.ty = "emphasis" ∨ m.ty = "delete" then
        enrichPlateJSON (p :: ps) (spliceList m.children ms) defs
      else if m.ty = "definition" ∨ m.ty = "yaml" then
        enrichPlateJSON (p :: ps) ms defs
      else if checkMatch p m defs then
        enrichMatched p m m.children defs :: enrichPlateJSON ps ms defs
      else if m.ty = "linkReference" then
        restoreLinkReference m defs :: enrichPlateJSON (p :: ps) ms defs
      else enrichPlateJSON (p :: ps) ms defs
termination_by _ ms _ => 2 * msizeL ms + 1
decreasing_by
  all_goals
    first
      | (have h1 := msizeL_spliceList m ms; simp only [msizeL] at h1 ⊢; omega)
      | (have h1 := msizeO_children_lt m; have h2 := msize_pos m
         simp only [msizeL, msizeO] at h1 h2 ⊢; omega)

/-- The matched-pair update of `enrichPlateJSON`: copy `checked` and
`align` where applicable, and recurse into the children lists when both
sides have them (`pNode.children` is truthy exactly when the tree node
is an element, `mNode.children` when the AST node has a children
array). -/
def enrichMatched : Node → MNode → Option (List MNode) → Defs → Node
  | .text l, _, _, _ => .text l
  | .elem ty url lang ch al cap pcs, m, some cs, defs =>
      .elem ty url lang (copyChecked ty m ch) (copyAlign ty m al) cap
        (enrichPlateJSON pcs cs defs)
  | .elem ty url lang ch al cap pcs, m, none, _ =>
      .elem ty url lang (copyChecked ty m ch) (copyAlign ty m al) cap pcs
termination_by _ _ mcs _ => 2 * msizeO mcs + 2
decreasing_by
  all_goals (simp only [msizeO]; omega)

end

/-! ### Mark-wrapping order (claims C1 and C7) -/

/-- Bold wrapper `**x**`, applied when the flag is set. -/
def wrapBold (b : Bool) (s : String) : String :=
  if b then "**" ++ s ++ "**" else s

/-- Italic wrapper `*x*`, applied when the flag is set. -/
def wrapItalic (b : Bool) (s : String) : String :=
  if b then "*" ++ s ++ "*" else s

/-- Code wrapper, applied when the flag is set. -/
def wrapCode (b : Bool) (s : String) : String :=
  if b then "`" ++ s ++ "`" else s

/-- Strikethrough wrapper `~~x~~`, applied when the flag is set. -/
def wrapStrike (b : Bool) (s : String) : String :=
  if b then "~~" ++ s ++ "~~" else s

/-- Underline wrapper `_x_`, applied when the flag is set. -/
def wrapUnderline (b : Bool) (s : String) : String :=
  if b then "_" ++ s ++ "_" else s

/-- Mark wrapping as a composition of the five wrappers in the order
the code applies them: bold innermost, then italic, code,
strikethrough, underline outermost (on top of the escape-if-unmarked
base text). -/
def serializeTextSpec (l : TextLeaf) : String :=
  wrapUnderline l.underline (wrapStrike l.strikethrough (wrapCode l.code
    (wrapItalic l.italic (wrapBold l.bold
      (if !l.bold && !l.italic && !l.code then escapeMd l.text else l.text)))))

/-- C1 (counterexample): the claim's fixed order "code, then bold, then
italic, then strikethrough, then underline" is not the code's order; on
the claim's own example `{text:"x", bold:true, code:true}` the code
yields `` `**x**` `` (code wrapper outside the bold wrapper), not the
claimed `` **`x`** ``. -/
theorem serializeText_mark_order_cex :
    serializeText ⟨"x", true, false, true, false, false⟩ = "`**x**`" ∧
    serializeText ⟨"x", true, false, true, false, false⟩ ≠ "**`x`**" := by
  constructor
  · decide
  · decide

/-- C1 (amended): `serializeText` applies the mark wrappers in the
fixed order bold, then italic, then code, then strikethrough, then
underline, multiple marks nesting in that order (bold innermost); in
particular `{text:"x", bold:true, code:true}` serializes with the bold
wrapper applied before (inside) the code wrapper, yielding
`` `**x**` ``. -/
theorem serializeText_mark_order_amended :
    (∀ l : TextLeaf, serializeText l = serializeTextSpec l) ∧
    serializeText ⟨"x", true, false, true, false, false⟩ = "`**x**`" := by
  constructor
  · intro l
    rfl
  · decide

/-- Character-level statement of escaping: every occurrence of `*`,
`_`, `[`, `]` is replaced by a backslash followed by the character,
every other character is kept. -/
theorem escapeChars_flatMap (cs : List Char) :
    escapeChars cs
      = cs.flatMap (fun c =>
          if c = '*' ∨ c = '_' ∨ c = '[' ∨ c = ']' then ['\\', c] else [c]) := by
  induction cs with
  | nil => simp [escapeChars]
  | cons c cs ih =>
      by_cases h : c = '*' ∨ c = '_' ∨ c = '[' ∨ c = ']' <;>
        simp [escapeChars, h, ih]

/-- C7: a leaf with none of `bold`, `italic`, `code` set has each
occurrence of `*`, `_`, `[`, `]` in its text escaped with a backslash
(the strikethrough/underline wrappers, which do not suppress escaping,
then apply outside); a leaf with `bold`, `italic` or `code` set is
exempt from escaping; and the claim's two concrete examples hold. -/
theorem serializeText_escaping :
    (∀ (t : String) (st un : Bool),
      serializeText ⟨t, false, false, false, st, un⟩
        = wrapUnderline un (wrapStrike st (escapeMd t))) ∧
    (∀ s : String, (escapeMd s).data
        = s.data.flatMap (fun c =>
            if c = '*' ∨ c = '_' ∨ c = '[' ∨ c = ']' then ['\\', c] else [c])) ∧
    (∀ l : TextLeaf, l.bold = true ∨ l.italic = true ∨ l.code = true →
      serializeText l
        = wrapUnderline l.underline (wrapStrike l.strikethrough (wrapCode l.code
            (wrapItalic l.italic (wrapBold l.bold l.text))))) ∧
    serializeText ⟨"a*b_c[d]e", false, false, false, false, false⟩ = "a\\*b\\_c\\[d\\]e" ∧
    serializeText ⟨"a*b_c[d]e", true, false, false, false, false⟩ = "**a*b_c[d]e**" := by
  refine ⟨fun t st un => rfl, fun s => escapeChars_flatMap s.data, ?_, by decide, by decide⟩
  intro l h
  obtain ⟨t, b, i, c, st, un⟩ := l
  rcases h with h | h | h <;> subst h <;>
    simp [serializeText, wrapBold, wrapItalic, wrapCode, wrapStrike, wrapUnderline]

/-- Witness for C7: the exemption hypothesis discharged at the claim's
bold example. -/
theorem serializeText_escaping_witness :
    serializeText ⟨"a*b_c[d]e", true, false, false, false, false⟩
      = wrapUnderline false (wrapStrike false (wrapCode false
          (wrapItalic false (wrapBold true "a*b_c[d]e")))) :=
  serializeText_escaping.2.2.1 ⟨"a*b_c[d]e", true, false, false, false, false⟩ (Or.inl rfl)

/-! ### Unknown element types (claim C9) -/

/-- The element-type vocabulary with explicit cases in `serializeNode`'s
switch; any other type falls to the default branch. -/
def recognizedTypes : List String :=
  ["h1", "h2", "h3", "h4", "h5", "h6", "p", "blockquote", "ul", "ol",
   "li", "lic", "code_block", "code_line", "hr", "a", "img", "table"]

/-- C9: `serializeNode` (and so `serialize`) is a total function —
every tree has a string result by construction — and an element whose
type is outside the recognized vocabulary renders as the concatenation
of its serialized children with no wrapper. -/
theorem serializeNode_unknown_type
    (ty : String) (url lang : Option String) (ch : Option Bool)
    (al : Option (List (Option String))) (cap : Option (List String))
    (cs : List Node) (d : Nat) (h : ty ∉ recognizedTypes) :
    serializeNode (.elem ty url lang ch al cap cs) d = serializeChildren cs := by
  have h1 : ty ≠ "h1" := by rintro rfl; exact h (by decide)
  have h2 : ty ≠ "h2" := by rintro rfl; exact h (by decide)
  have h3 : ty ≠ "h3" := by rintro rfl; exact h (by decide)
  have h4 : ty ≠ "h4" := by rintro rfl; exact h (by decide)
  have h5 : ty ≠ "h5" := by rintro rfl; exact h (by decide)
  have h6 : ty ≠ "h6" := by rintro rfl; exact h (by decide)
  have h7 : ty ≠ "p" := by rintro rfl; exact h (by decide)
  have h8 : ty ≠ "blockquote" := by rintro rfl; exact h (by decide)
  have h9 : ty ≠ "ul" := by rintro rfl; exact h (by decide)
  have h10 : ty ≠ "ol" := by rintro rfl; exact h (by decide)
  have h11 : ty ≠ "li" := by rintro rfl; exact h (by decide)
  have h12 : ty ≠ "lic" := by rintro rfl; exact h (by decide)
  have h13 : ty ≠ "code_block" := by rintro rfl; exact h (by decide)
  have h14 : ty ≠ "code_line" := by rintro rfl; exact h (by decide)
  have h15 : ty ≠ "hr" := by rintro rfl; exact h (by decide)
  have h16 : ty ≠ "a" := by rintro rfl; exact h (by decide)
  have h17 : ty ≠ "img" := by rintro rfl; exact h (by decide)
  have h18 : ty ≠ "table" := by rintro rfl; exact h (by decide)
  simp [serializeNode, h1, h2, h3, h4, h5, h6, h7, h8, h9, h10, h11, h12,
    h13, h14, h15, h16, h17, h18]

/-- Witness for C9: an element of the unrecognized type `"custom"`
renders as its serialized children. -/
theorem serializeNode_unknown_type_witness :
    serializeNode
        (.elem "custom" none none none none none
          [Node.text ⟨"x", false, false, false, false, false⟩]) 0
      = serializeChildren [Node.text ⟨"x", false, false, false, false, false⟩] :=
  serializeNode_unknown_type "custom" none none none none none
    [Node.text ⟨"x", false, false, false, false, false⟩] 0 (by decide)

/-! ### Table separator row (claim C2) -/

/-- Modelled on the spec's wording of the separator row: map each
column index of the header through the align sequence — `"center"`
yields `":---:"`, `"right"` yields `"---:"`, any other value (including
`"left"`, `null` or a missing entry) yields `"---"` — join with
`" | "` and wrap in pipe framing. -/
def sepRowSpec (align : List (Option String)) (ncols : Nat) : String :=
  "| " ++ joinSep " | " ((List.range ncols).map (fun i =>
      match alignAt align i with
      | some a => if a = "center" then ":---:" else if a = "right" then "---:" else "---"
      | none => "---")) ++ " |"

theorem sepMarkers_eq_range (cs : List Node) (al : List (Option String)) (i : Nat) :
    sepMarkers cs al i
      = (List.range cs.length).map (fun k => alignMarker (alignAt al (i + k))) := by
  induction cs generalizing i with
  | nil => simp [sepMarkers]
  | cons c cs ih =>
      simp only [sepMarkers, List.length_cons, List.range_succ_eq_map, List.map_cons,
        List.map_map, ih]
      refine congrArg₂ _ (by simp) ?_
      apply List.map_congr_left
      intro k _
      simp [Function.comp]
      ring_nf

theorem alignMarker_eq_specMarker (o : Option String) :
    (match o with
     | some a => if a = "center" then ":---:" else if a = "right" then "---:" else "---"
     | none => "---") = alignMarker o := by
  cases o with
  | none => simp [alignMarker]
  | some a => simp [alignMarker]

theorem sepLineOf_eq_spec (r : Node) (al : List (Option String)) :
    sepLineOf r al = sepRowSpec al r.childrenOf.length := by
  cases r with
  | text l =>
      simp [sepLineOf, sepRowSpec, Node.childrenOf, sepMarkers]
  | elem ty url lang ch a cap cs =>
      simp [sepLineOf, sepRowSpec, Node.childrenOf, sepMarkers_eq_range,
        alignMarker_eq_specMarker]

/-- C2: for every table with at least one row, the line emitted
immediately after the header-row line is the separator row mapping each
header-column index through the table's align sequence (`"center"` ↦
`":---:"`, `"right"` ↦ `"---:"`, anything else ↦ `"---"`), joined with
`" | "` in pipe framing; and the claim's concrete example — align
`["left","center","right"]` with a 3-column header — produces
`"| A | B | C |\n| --- | :---: | ---: |"`. -/
theorem serializeTable_separator :
    (∀ (align : Option (List (Option String))) (r0 : Node) (rs : List Node),
      serializeTable align (r0 :: rs)
        = joinSep "\n"
            (rowLine r0
              :: sepRowSpec (align.getD []) r0.childrenOf.length
              :: bodyLines rs)) ∧
    serializeTable (some [some "left", some "center", some "right"])
        [Node.elem "tr" none none none none none
          [Node.elem "td" none none none none none
            [Node.text ⟨"A", false, false, false, false, false⟩],
           Node.elem "td" none none none none none
            [Node.text ⟨"B", false, false, false, false, false⟩],
           Node.elem "td" none none none none none
            [Node.text ⟨"C", false, false, false, false, false⟩]]]
      = "| A | B | C |\n| --- | :---: | ---: |" := by
  constructor
  · intro align r0 rs
    simp [serializeTable, sepLineOf_eq_spec]
  · decide

/-! ### Nested list placement (claim C8) -/

theorem dash_space (s : String) : "-" ++ (" " ++ s) = "- " ++ s := by
  rw [← String.append_assoc]; rfl

theorem indentStr_succ (d : Nat) : indentStr (d + 1) = indentStr d ++ "  " := rfl

theorem liLoop_append (xs ys : List Node) (ordered : Bool) (depth : Nat) :
    liLoop (xs ++ ys) ordered depth
      = ((liLoop xs ordered depth).1 ++ (liLoop ys ordered depth).1,
         (liLoop xs ordered depth).2 ++ (liLoop ys ordered depth).2) := by
  induction xs with
  | nil => simp [liLoop]
  | cons c cs ih =>
      by_cases h : c.isNestedList = true <;>
        simp [liLoop, h, ih, String.append_assoc]

theorem liLoop_no_nested (xs : List Node) (ordered : Bool) (depth : Nat)
    (h : ∀ c ∈ xs, c.isNestedList = false) :
    (liLoop xs ordered depth).2 = [] := by
  induction xs with
  | nil => simp [liLoop]
  | cons c cs ih =>
      have hc := h c (by simp)
      simp [liLoop, hc]
      exact ih (fun c hm => h c (by simp [hm]))

theorem liAssemble_indent (o : Bool) (d : Nat) (i : Option Nat) (c : Option Bool)
    (parts : String × List String) :
    ∃ r, liAssemble o d i c parts = indentStr d ++ r := by
  by_cases h : parts.2 = []
  · exact ⟨liMarker o i ++ (" " ++ (checkboxPfx c ++ parts.1)),
      by simp [liAssemble, h, String.append_assoc]⟩
  · exact ⟨liMarker o i ++ (" " ++ (checkboxPfx c ++ (parts.1 ++ ("\n" ++ joinSep "\n" parts.2)))),
      by simp [liAssemble, h, String.append_assoc]⟩

/-- C8: a `ul` with one `li` whose children contain a nested `ul`
(anywhere among otherwise non-list children) renders as the item's own
inline content first, then a newline, then the nested list rendered at
depth + 1 — never interleaved; and every item of the nested list starts
with an indentation two spaces deeper than the parent item's. -/
theorem nested_list_after_item_content
    (depth : Nat) (xs ys items : List Node)
    (u0 l0 u1 l1 u2 l2 : Option String) (ch0 ch2 : Option Bool)
    (al0 al1 al2 : Option (List (Option String)))
    (cap0 cap1 cap2 : Option (List String))
    (hx : ∀ c ∈ xs, c.isNestedList = false)
    (hy : ∀ c ∈ ys, c.isNestedList = false) :
    serializeNode
        (.elem "ul" u0 l0 ch0 al0 cap0
          [.elem "li" u1 l1 none al1 cap1
            (xs ++ .elem "ul" u2 l2 ch2 al2 cap2 items :: ys)]) depth
      = indentStr depth ++ "- "
          ++ ((liLoop xs false depth).1 ++ (liLoop ys false depth).1)
          ++ "\n" ++ serializeNode (.elem "ul" u2 l2 ch2 al2 cap2 items) (depth + 1) ∧
    (∀ it ∈ items, ∃ rest,
      serializeListItem it false (depth + 1) none = indentStr depth ++ "  " ++ rest) := by
  constructor
  · have hxs2 := liLoop_no_nested xs false depth hx
    have hys2 := liLoop_no_nested ys false depth hy
    simp only [serializeNode, serializeUlItems, joinSep, serializeListItem,
      reduceIte]
    rw [liLoop_append]
    simp only [liLoop, Node.isNestedList]
    simp [liAssemble, hxs2, hys2, liMarker, checkboxPfx, joinSep,
      String.append_assoc, dash_space]
    simp [serializeNode]
  · intro it _
    obtain ⟨r, hr⟩ :
        ∃ r, serializeListItem it false (depth + 1) none = indentStr (depth + 1) ++ r := by
      cases it with
      | text l => simpa [serializeListItem] using liAssemble_indent false (depth + 1) none none ("", [])
      | elem ty url lang ch al cap cs =>
          simpa [serializeListItem] using
            liAssemble_indent false (depth + 1) none ch (liLoop cs false (depth + 1))
    exact ⟨r, by rw [hr, indentStr_succ, String.append_assoc]⟩

/-- Witness for C8: the non-list-children hypotheses discharged on a
concrete item with one text child before, one after, and a two-item
nested list. -/
theorem nested_list_after_item_content_witness :
    serializeNode
        (.elem "ul" none none none none none
          [.elem "li" none none none none none
            ([Node.text ⟨"a", false, false, false, false, false⟩]
              ++ .elem "ul" none none none none none
                  [.elem "li" none none none none none
                    [Node.text ⟨"n1", false, false, false, false, false⟩],
                   .elem "li" none none none none none
                    [Node.text ⟨"n2", false, false, false, false, false⟩]]
                :: [Node.text ⟨"b", false, false, false, false, false⟩])]) 0
      = indentStr 0 ++ "- "
          ++ ((liLoop [Node.text ⟨"a", false, false, false, false, false⟩] false 0).1
              ++ (liLoop [Node.text ⟨"b", false, false, false, false, false⟩] false 0).1)
          ++ "\n"
          ++ serializeNode
              (.elem "ul" none none none none none
                [.elem "li" none none none none none
                  [Node.text ⟨"n1", false, false, false, false, false⟩],
                 .elem "li" none none none none none
                  [Node.text ⟨"n2", false, false, false, false, false⟩]]) 1 :=
  (nested_list_after_item_content 0
    [Node.text ⟨"a", false, false, false, false, false⟩]
    [Node.text ⟨"b", false, false, false, false, false⟩]
    [.elem "li" none none none none none [Node.text ⟨"n1", false, false, false, false, false⟩],
     .elem "li" none none none none none [Node.text ⟨"n2", false, false, false, false, false⟩]]
    none none none none none none none none none none none none none none
    (by intro c hc; simp at hc; subst hc; decide)
    (by intro c hc; simp at hc; subst hc; decide)).1

/-! ### Link match rule (claim C5) -/

/-- The AST-side URL used by `checkMatch`'s `a` branch: the node's own
`url`, or for a `linkReference` the definitions-map lookup of its
identifier. -/
def mUrlOf (m : MNode) (defs : Defs) : Option String :=
  if m.ty = "linkReference" then m.identifier.bind defs else m.url

/-- C5: for a tree node of type `a` and an AST node of type `link` or
`linkReference`, `checkMatch` succeeds exactly when the tree URL equals
the AST URL (for a `linkReference`, `definitions.get(identifier)`);
equality is JS strict equality on the optional strings, so two absent
URLs are equal, two equal strings are equal, and any other pair —
including unequal URLs with corresponding types — is a mismatch. -/
theorem checkMatch_link_iff_url
    (url lang : Option String) (ch : Option Bool)
    (al : Option (List (Option String))) (cap : Option (List String))
    (cs : List Node) (m : MNode) (defs : Defs)
    (h : m.ty = "link" ∨ m.ty = "linkReference") :
    checkMatch (.elem "a" url lang ch al cap cs) m defs = true ↔ url = mUrlOf m defs := by
  rcases h with h | h <;> simp [checkMatch, mUrlOf, h]

/-- Witness for C5: the type hypothesis discharged on a concrete
`link` node; the match holds exactly when `some "u" = some "u"`. -/
theorem checkMatch_link_iff_url_witness :
    checkMatch (.elem "a" (some "u") none none none none [])
        (.mk "link" none none none none (some "u") none none none) (fun _ => none) = true
      ↔ (some "u" : Option String)
          = mUrlOf (.mk "link" none none none none (some "u") none none none) (fun _ => none) :=
  checkMatch_link_iff_url (some "u") none none none none []
    (.mk "link" none none none none (some "u") none none none) (fun _ => none) (Or.inl rfl)

/-! ### Link-reference reconstruction (claim C4) -/

/-- C4: the claim's concrete scenario — definitions mapping `"ref1"` to
`"https://x"` and a dangling `linkReference` with one text child
`"go"` — appends the reconstructed `a` node when the tree cursor is
exhausted; in general a mismatching `linkReference` is inserted at the
current cursor position, an exhausted tree appends it, the URL falls
back to the empty string when unresolved, and a non-text AST child is
converted to an empty leaf. -/
theorem enrich_linkref_restore
    : enrichPlateJSON []
        [.mk "linkReference" none none none none none (some "ref1") none
          (some [.mk "text" none none none none none none (some "go") none])]
        (fun s => if s = "ref1" then some "https://x" else none)
        = [.elem "a" (some "https://x") none none none none
            [.text ⟨"go", false, false, false, false, false⟩]] ∧
      (∀ (p : Node) (ps : List Node) (m : MNode) (ms : List MNode) (defs : Defs),
        m.ty = "linkReference" → checkMatch p m defs = false →
        enrichPlateJSON (p :: ps) (m :: ms) defs
          = restoreLinkReference m defs :: enrichPlateJSON (p :: ps) ms defs) ∧
      (∀ (m : MNode) (ms : List MNode) (defs : Defs),
        m.ty = "linkReference" →
        enrichPlateJSON [] (m :: ms) defs
          = restoreLinkReference m defs :: enrichPlateJSON [] ms defs) ∧
      restoreLinkReference
          (.mk "linkReference" none none none none none (some "nope") none
            (some [.mk "image" none none none none (some "https://img") none none none]))
          (fun _ => none)
        = .elem "a" (some "") none none none none
            [.text ⟨"", false, false, false, false, false⟩] := by
  refine ⟨?_, ?_, ?_, ?_⟩
  · simp [enrichPlateJSON, restoreLinkReference, MNode.ty, MNode.identifier,
      MNode.children, MNode.value]
  · intro p ps m ms defs hty hmm
    have hw : ¬(m.ty = "strong" ∨ m.ty = "emphasis" ∨ m.ty = "delete") := by
      simp [hty]
    have hd : ¬(m.ty = "definition" ∨ m.ty = "yaml") := by simp [hty]
    simp [enrichPlateJSON, hw, hd, hmm, hty]
  · intro m ms defs hty
    simp [enrichPlateJSON, hty]
  · simp [restoreLinkReference, MNode.ty, MNode.identifier, MNode.children,
      MNode.value]

/-- Witness for C4: the mismatch hypothesis discharged on a concrete
paragraph node facing a concrete `linkReference`. -/
theorem enrich_linkref_restore_witness :
    enrichPlateJSON [.elem "p" none none none none none []]
        [.mk "linkReference" none none none none none (some "ref1") none none]
        (fun _ => none)
      = restoreLinkReference
          (.mk "linkReference" none none none none none (some "ref1") none none)
          (fun _ => none)
        :: enrichPlateJSON [.elem "p" none none none none none []] [] (fun _ => none) :=
  enrich_linkref_restore.2.1 (.elem "p" none none none none none []) []
    (.mk "linkReference" none none none none none (some "ref1") none none) []
    (fun _ => none) rfl (by decide)

/-! ### Enrichment termination (claim C10) -/

/-- C10: `enrichPlateJSON` terminates on every finite input — in this
embedding it is a total function, defined by well-founded recursion on
the measure `msizeL` (total count of remaining AST nodes, subtrees
included); this theorem states the strict decrease of that measure at
each kind of loop step: splicing a wrapper node with a children array
replaces it by its strictly smaller children; every cursor advance
drops a whole AST node; and recursing into a matched node's children
stays strictly below the node itself. -/
theorem enrich_measure_decreasing
    : (∀ (m : MNode) (cs ms : List MNode), m.children = some cs →
        msizeL (cs ++ ms) < msizeL (m :: ms)) ∧
      (∀ (m : MNode) (ms : List MNode), msizeL (spliceList m.children ms) < msizeL (m :: ms)) ∧
      (∀ (m : MNode) (ms : List MNode), msizeL ms < msizeL (m :: ms)) ∧
      (∀ (m : MNode) (cs ms : List MNode), m.children = some cs →
        msizeL cs < msizeL (m :: ms)) := by
  refine ⟨?_, msizeL_spliceList, ?_, ?_⟩
  · intro m cs ms hc
    have h1 := msize_of_children hc
    simp only [msizeL, msizeL_append]
    omega
  · intro m ms
    have := msize_pos m
    simp only [msizeL]
    omega
  · intro m cs ms hc
    have h1 := msize_of_children hc
    simp only [msizeL]
    omega

/-- Witness for C10: the children hypothesis discharged on a concrete
`strong` wrapper holding one text node. -/
theorem enrich_measure_decreasing_witness :
    msizeL ([.mk "text" none none none none none none (some "x") none] ++ [])
      < msizeL [.mk "strong" none none none none none none none
          (some [.mk "text" none none none none none none (some "x") none])] :=
  enrich_measure_decreasing.1
    (.mk "strong" none none none none none none none
      (some [.mk "text" none none none none none none (some "x") none]))
    [.mk "text" none none none none none none (some "x") none] [] rfl

/-! ### Structure preservation under enrichment (claim C6) -/

mutual

/-- Node-level preservation: the enriched node has the same shape as
the original — identical text leaves, identical `type`/`url`/`lang`/
`caption` on elements — with `checked` and `align` either unchanged or
(re)assigned to a present value, and children preserved in sequence. -/
inductive Enriched : Node → Node → Prop where
  | text (l : TextLeaf) : Enriched (.text l) (.text l)
  | elem {ty : String} {url lang : Option String} {ch ch' : Option Bool}
      {al al' : Option (List (Option String))} {cap : Option (List String)}
      {cs cs' : List Node} :
      (ch' = ch ∨ ch' ≠ none) →
      (al' = al ∨ al' ≠ none) →
      SeqEnriched cs cs' →
      Enriched (.elem ty url lang ch al cap cs) (.elem ty url lang ch' al' cap cs')

/-- Sibling-sequence preservation: the original sequence is a
subsequence of the output — every original node is kept (enriched) in
order, and extra nodes may only be inserted, never deleted or
reordered. -/
inductive SeqEnriched : List Node → List Node → Prop where
  | nil : SeqEnriched [] []
  | keep {p p' : Node} {ps qs : List Node} :
      Enriched p p' → SeqEnriched ps qs → SeqEnriched (p :: ps) (p' :: qs)
  | ins {ps : List Node} {q : Node} {qs : List Node} :
      SeqEnriched ps qs → SeqEnriched ps (q :: qs)

end

mutual

theorem enriched_refl : (p : Node) → Enriched p p
  | .text l => .text l
  | .elem _ _ _ _ _ _ cs => .elem (Or.inl rfl) (Or.inl rfl) (seqEnriched_refl cs)

theorem seqEnriched_refl : (l : List Node) → SeqEnriched l l
  | [] => .nil
  | p :: ps => .keep (enriched_refl p) (seqEnriched_refl ps)

end

theorem seqEnriched_nil : ∀ qs : List Node, SeqEnriched [] qs
  | [] => .nil
  | _ :: qs => .ins (seqEnriched_nil qs)

theorem copyChecked_ok (pty : String) (m : MNode) (ch : Option Bool) :
    copyChecked pty m ch = ch ∨ copyChecked pty m ch ≠ none := by
  by_cases h : pty = "li" ∧ m.ty = "listItem"
  · cases hc : m.checked <;> simp [copyChecked, h, hc]
  · simp [copyChecked, h]

theorem copyAlign_ok (pty : String) (m : MNode) (al : Option (List (Option String))) :
    copyAlign pty m al = al ∨ copyAlign pty m al ≠ none := by
  by_cases h : pty = "table" ∧ m.ty = "table"
  · cases hc : m.align <;> simp [copyAlign, h, hc]
  · simp [copyAlign, h]

theorem enriched_enrichMatched (p : Node) (m : MNode) (defs : Defs)
    (hrec : ∀ (pcs : List Node) (cs : List MNode), m.children = some cs →
      SeqEnriched pcs (enrichPlateJSON pcs cs defs)) :
    Enriched p (enrichMatched p m m.children defs) := by
  cases p with
  | text l =>
      cases hmc : m.children <;>
        simpa [enrichMatched] using Enriched.text l
  | elem ty url lang ch al cap pcs =>
      cases hmc : m.children with
      | none =>
          simpa [enrichMatched] using
            Enriched.elem (copyChecked_ok ty m ch) (copyAlign_ok ty m al)
              (seqEnriched_refl pcs)
      | some cs =>
          simpa [enrichMatched] using
            Enriched.elem (copyChecked_ok ty m ch) (copyAlign_ok ty m al)
              (hrec pcs cs hmc)

theorem seqEnriched_enrichAux (defs : Defs) :
    ∀ (n : Nat) (ms : List MNode) (ps : List Node),
      msizeL ms ≤ n → SeqEnriched ps (enrichPlateJSON ps ms defs) := by
  intro n
  induction n with
  | zero =>
      intro ms ps hle
      cases ms with
      | nil => simpa [enrichPlateJSON] using seqEnriched_refl ps
      | cons m ms' =>
          have := msize_pos m
          simp only [msizeL] at hle
          omega
  | succ n ih =>
      intro ms ps hle
      cases ms with
      | nil => simpa [enrichPlateJSON] using seqEnriched_refl ps
      | cons m ms' =>
          have hsp : msizeL (spliceList m.children ms') ≤ n := by
            have h := msizeL_spliceList m ms'
            omega
          have hpos := msize_pos m
          simp only [msizeL] at hle
          have hms' : msizeL ms' ≤ n := by omega
          cases ps with
          | nil =>
              by_cases hl : m.ty = "linkReference" <;>
                simp [enrichPlateJSON, hl] <;>
                exact seqEnriched_nil _
          | cons p ps' =>
              by_cases hw : m.ty = "strong" ∨ m.ty = "emphasis" ∨ m.ty = "delete"
              · simp [enrichPlateJSON, hw]
                exact ih _ _ hsp
              · by_cases hd : m.ty = "definition" ∨ m.ty = "yaml"
                · simp [enrichPlateJSON, hw, hd]
                  exact ih _ _ hms'
                · by_cases hm : checkMatch p m defs = true
                  · simp [enrichPlateJSON, hw, hd, hm]
                    refine SeqEnriched.keep ?_ (ih _ _ hms')
                    refine enriched_enrichMatched p m defs ?_
                    intro pcs cs hc
                    have hcs : msizeL cs ≤ n := by
                      have h := msize_of_children hc
                      omega
                    exact ih _ _ hcs
                  · by_cases hl : m.ty = "linkReference"
                    · simp [enrichPlateJSON, hw, hd, hm, hl]
                      exact SeqEnriched.ins (ih _ _ hms')
                    · simp [enrichPlateJSON, hw, hd, hm, hl]
                      exact ih _ _ hms'

/-- C6 (counterexample): metadata is not only *added*: on a matched
`li`↔`listItem` pair the assignment `pNode.checked = mNode.checked`
overwrites an already-present `checked: false` on the tree node with
the AST's `true`. -/
theorem enrich_metadata_overwrite_cex :
    enrichPlateJSON [.elem "li" none none (some false) none none []]
        [.mk "listItem" none none (some true) none none none none none] (fun _ => none)
      = [.elem "li" none none (some true) none none []] ∧
    (some false : Option Bool) ≠ some true := by
  constructor
  · simp [enrichPlateJSON, enrichMatched, checkMatch, copyChecked, copyAlign,
      MNode.ty, MNode.checked, MNode.children, MNode.align, MNode.ordered]
  · decide

/-- C6 (amended): for every tree and AST input, enrichment preserves
every pre-existing tree node and their relative order at every sibling
level: the original node sequence is a subsequence of the output
sequence, nodes are only inserted — never deleted or reordered — and
on kept nodes only the `checked`/`align` metadata fields change, each
either left as it was or assigned a present value (an already-present
value may be overwritten by the matched AST node's). -/
theorem enrich_preserves_structure (defs : Defs) (ps : List Node) (ms : List MNode) :
    SeqEnriched ps (enrichPlateJSON ps ms defs) :=
  seqEnriched_enrichAux defs (msizeL ms) ms ps le_rfl

/-! ### Checked preservation when the AST has no task items (claim C3,
strengthening) -/

mutual

/-- No node of this mdast subtree carries a `checked` field. -/
def noCheckedM : MNode → Bool
  | .mk _ _ _ c _ _ _ _ none => decide (c = none)
  | .mk _ _ _ c _ _ _ _ (some cs) => decide (c = none) && noCheckedL cs

/-- No node of this mdast forest carries a `checked` field. -/
def noCheckedL : List MNode → Bool
  | [] => true
  | m :: ms => noCheckedM m && noCheckedL ms

end

theorem noCheckedL_append {l1 l2 : List MNode} (h1 : noCheckedL l1 = true)
    (h2 : noCheckedL l2 = true) : noCheckedL (l1 ++ l2) = true := by
  induction l1 with
  | nil => simpa using h2
  | cons m ms ih =>
      simp only [noCheckedL, Bool.and_eq_true] at h1 ⊢
      exact ⟨h1.1, ih h1.2⟩

theorem noChecked_head {m : MNode} {ms : List MNode}
    (h : noCheckedL (m :: ms) = true) : m.checked = none := by
  cases m with
  | mk t d o c a u i v ch =>
      cases ch <;> simp [noCheckedL, noCheckedM, MNode.checked] at h ⊢ <;> tauto

theorem noChecked_tail {m : MNode} {ms : List MNode}
    (h : noCheckedL (m :: ms) = true) : noCheckedL ms = true := by
  simp only [noCheckedL, Bool.and_eq_true] at h
  exact h.2

theorem noChecked_children {m : MNode} {ms cs : List MNode}
    (h : noCheckedL (m :: ms) = true) (hc : m.children = some cs) :
    noCheckedL cs = true := by
  cases m with
  | mk t d o c a u i v ch =>
      cases ch with
      | none => simp [MNode.children] at hc
      | some cs' =>
          simp [MNode.children] at hc
          subst hc
          simp [noCheckedL, noCheckedM, Bool.and_eq_true] at h
          tauto

theorem noChecked_splice {m : MNode} {ms : List MNode}
    (h : noCheckedL (m :: ms) = true) :
    noCheckedL (spliceList m.children ms) = true := by
  rcases hc : m.children with _ | cs
  · simpa [spliceList] using noChecked_tail h
  · simpa [spliceList] using
      noCheckedL_append (noChecked_children h hc) (noChecked_tail h)

theorem copyChecked_of_none {pty : String} {m : MNode} (ch : Option Bool)
    (h : m.checked = none) : copyChecked pty m ch = ch := by
  by_cases hc : pty = "li" ∧ m.ty = "listItem" <;> simp [copyChecked, hc, h]

mutual

/-- Node-level preservation with `checked` kept exactly: same shape,
same `checked`, `align` unchanged or assigned, children likewise
preserved. -/
inductive EnrichedK : Node → Node → Prop where
  | text (l : TextLeaf) : EnrichedK (.text l) (.text l)
  | elem {ty : String} {url lang : Option String} {ch : Option Bool}
      {al al' : Option (List (Option String))} {cap : Option (List String)}
      {cs cs' : List Node} :
      (al' = al ∨ al' ≠ none) →
      SeqEnrichedK cs cs' →
      EnrichedK (.elem ty url lang ch al cap cs) (.elem ty url lang ch al' cap cs')

/-- Sequence-level preservation with `checked` kept exactly on every
kept node. -/
inductive SeqEnrichedK : List Node → List Node → Prop where
  | nil : SeqEnrichedK [] []
  | keep {p p' : Node} {ps qs : List Node} :
      EnrichedK p p' → SeqEnrichedK ps qs → SeqEnrichedK (p :: ps) (p' :: qs)
  | ins {ps : List Node} {q : Node} {qs : List Node} :
      SeqEnrichedK ps qs → SeqEnrichedK ps (q :: qs)

end

mutual

theorem enrichedK_refl : (p : Node) → EnrichedK p p
  | .text l => .text l
  | .elem _ _ _ _ _ _ cs => .elem (Or.inl rfl) (seqEnrichedK_refl cs)

theorem seqEnrichedK_refl : (l : List Node) → SeqEnrichedK l l
  | [] => .nil
  | p :: ps => .keep (enrichedK_refl p) (seqEnrichedK_refl ps)

end

theorem seqEnrichedK_nil : ∀ qs : List Node, SeqEnrichedK [] qs
  | [] => .nil
  | _ :: qs => .ins (seqEnrichedK_nil qs)

theorem enrichedK_enrichMatched (p : Node) (m : MNode) (defs : Defs)
    (hch : m.checked = none)
    (hrec : ∀ (pcs : List Node) (cs : List MNode), m.children = some cs →
      SeqEnrichedK pcs (enrichPlateJSON pcs cs defs)) :
    EnrichedK p (enrichMatched p m m.children defs) := by
  cases p with
  | text l =>
      cases hmc : m.children <;>
        simpa [enrichMatched] using EnrichedK.text l
  | elem ty url lang ch al cap pcs =>
      cases hmc : m.children with
      | none =>
          simpa [enrichMatched, copyChecked_of_none ch hch] using
            EnrichedK.elem (copyAlign_ok ty m al) (seqEnrichedK_refl pcs)
      | some cs =>
          simpa [enrichMatched, copyChecked_of_none ch hch] using
            EnrichedK.elem (copyAlign_ok ty m al) (hrec pcs cs hmc)

theorem seqEnrichedK_enrichAux (defs : Defs) :
    ∀ (n : Nat) (ms : List MNode) (ps : List Node),
      msizeL ms ≤ n → noCheckedL ms = true →
      SeqEnrichedK ps (enrichPlateJSON ps ms defs) := by
  intro n
  induction n with
  | zero =>
      intro ms ps hle _
      cases ms with
      | nil => simpa [enrichPlateJSON] using seqEnrichedK_refl ps
      | cons m ms' =>
          have := msize_pos m
          simp only [msizeL] at hle
          omega
  | succ n ih =>
      intro ms ps hle hnc
      cases ms with
      | nil => simpa [enrichPlateJSON] using seqEnrichedK_refl ps
      | cons m ms' =>
          have hsp : msizeL (spliceList m.children ms') ≤ n := by
            have h := msizeL_spliceList m ms'
            omega
          have hncs := noChecked_splice hnc
          have hnct := noChecked_tail hnc
          have hpos := msize_pos m
          simp only [msizeL] at hle
          have hms' : msizeL ms' ≤ n := by omega
          cases ps with
          | nil =>
              by_cases hl : m.ty = "linkReference" <;>
                simp [enrichPlateJSON, hl] <;>
                exact seqEnrichedK_nil _
          | cons p ps' =>
              by_cases hw : m.ty = "strong" ∨ m.ty = "emphasis" ∨ m.ty = "delete"
              · simp [enrichPlateJSON, hw]
                exact ih _ _ hsp hncs
              · by_cases hd : m.ty = "definition" ∨ m.ty = "yaml"
                · simp [enrichPlateJSON, hw, hd]
                  exact ih _ _ hms' hnct
                · by_cases hm : checkMatch p m defs = true
                  · simp [enrichPlateJSON, hw, hd, hm]
                    refine SeqEnrichedK.keep ?_ (ih _ _ hms' hnct)
                    refine enrichedK_enrichMatched p m defs (noChecked_head hnc) ?_
                    intro pcs cs hc
                    have hcs : msizeL cs ≤ n := by
                      have h := msize_of_children hc
                      omega
                    exact ih _ _ hcs (noChecked_children hnc hc)
                  · by_cases hl : m.ty = "linkReference"
                    · simp [enrichPlateJSON, hw, hd, hm, hl]
                      exact SeqEnrichedK.ins (ih _ _ hms' hnct)
                    · simp [enrichPlateJSON, hw, hd, hm, hl]
                      exact ih _ _ hms' hnct

/-! ### Task-item checked enrichment (claim C3) -/

/-- C3: a tree `li` without a `checked` field, matched against an AST
`listItem` whose `checked` is the boolean `true`, gains `checked: true`
(children possibly recursively enriched, everything else unchanged); a
tree `li` matched against a non-task `listItem` (no boolean `checked`)
keeps no `checked` field; with no AST nodes left the tree passes
through unchanged; and against an AST forest with no `checked` field
anywhere every kept tree node retains exactly its original `checked` —
in particular absence is never defaulted to `false`, keeping absence
distinct from `checked: false`. -/
theorem enrich_li_checked
    : (∀ (defs : Defs) (u l : Option String) (al : Option (List (Option String)))
        (cap : Option (List String)) (pcs ps : List Node) (m : MNode) (ms : List MNode),
        m.ty = "listItem" → m.checked = some true →
        ∃ pcs', enrichPlateJSON (.elem "li" u l none al cap pcs :: ps) (m :: ms) defs
          = .elem "li" u l (some true) al cap pcs' :: enrichPlateJSON ps ms defs) ∧
      (∀ (defs : Defs) (u l : Option String) (al : Option (List (Option String)))
        (cap : Option (List String)) (pcs ps : List Node) (m : MNode) (ms : List MNode),
        m.ty = "listItem" → m.checked = none →
        ∃ pcs', enrichPlateJSON (.elem "li" u l none al cap pcs :: ps) (m :: ms) defs
          = .elem "li" u l none al cap pcs' :: enrichPlateJSON ps ms defs) ∧
      (∀ (defs : Defs) (ps : List Node), enrichPlateJSON ps [] defs = ps) ∧
      (∀ (defs : Defs) (ps : List Node) (ms : List MNode),
        noCheckedL ms = true → SeqEnrichedK ps (enrichPlateJSON ps ms defs)) := by
  refine ⟨?_, ?_, fun defs ps => by simp [enrichPlateJSON],
    fun defs ps ms hnc => seqEnrichedK_enrichAux defs (msizeL ms) ms ps le_rfl hnc⟩
  · intro defs u l al cap pcs ps m ms hty hch
    rcases hc : m.children with _ | cs
    · exact ⟨pcs, by
        simp [enrichPlateJSON, hty, checkMatch, enrichMatched, hc, copyChecked,
          copyAlign, hch]⟩
    · exact ⟨enrichPlateJSON pcs cs defs, by
        simp [enrichPlateJSON, hty, checkMatch, enrichMatched, hc, copyChecked,
          copyAlign, hch]⟩
  · intro defs u l al cap pcs ps m ms hty hch
    rcases hc : m.children with _ | cs
    · exact ⟨pcs, by
        simp [enrichPlateJSON, hty, checkMatch, enrichMatched, hc, copyChecked,
          copyAlign, hch]⟩
    · exact ⟨enrichPlateJSON pcs cs defs, by
        simp [enrichPlateJSON, hty, checkMatch, enrichMatched, hc, copyChecked,
          copyAlign, hch]⟩

/-- Witness for C3: a concrete childless `li` paired with a concrete
task `listItem` gains `checked: true`. -/
theorem enrich_li_checked_witness :
    ∃ pcs', enrichPlateJSON [.elem "li" none none none none none []]
        [.mk "listItem" none none (some true) none none none none none] (fun _ => none)
      = .elem "li" none none (some true) none none pcs'
          :: enrichPlateJSON [] [] (fun _ => none) :=
  enrich_li_checked.1 (fun _ => none) none none none none [] []
    (.mk "listItem" none none (some true) none none none none none) [] rfl rfl
